import Mathlib

/-!
# urlshort: `MapHandler` and `YAMLHandler`

A shallow embedding of `urlshort/handler.go`.

* A Go `map[string]string` is a list of key/value pairs; `assign` is the
  statement `m[k] = v` (overwrite in place, or add), `lookup` is the
  comma-ok read `v, ok := m[k]`.
* An `http.Handler` is a state transformer `W → R → σ → σ`: `W` is the type
  of response writers, `R` the type of requests, `σ` the state of everything
  a handler can act on (the connection, the fallback's own data).
* What the file imports and does not define is a parameter: `net/http`
  (`Http`: the string form of a request's URL and `http.Redirect`) and
  `yaml.Unmarshal` (a function from the document to the decoded slice and
  the error it returns).
* A Go map is a reference. `MapHandlerRef` is the closure of `MapHandler` with
  the map kept in the state, where a fallback that shares the map can write it.
* `yamlUnmarshal` follows the decoder of gopkg.in/yaml.v2 on the nodes of a
  document, for the target `[]MapperEntry`.
-/

namespace Urlshort

/-! ## Data model -/

/-- Go `map[string]string`: the key/value pairs held by the map. -/
abbrev GoMap := List (String × String)

/-- The comma-ok read `v, ok := m[k]`: `some v` when `ok`, `none` otherwise. -/
def lookup (m : GoMap) (k : String) : Option String :=
  match m with
  | [] => none
  | (k', v) :: rest => if k' = k then some v else lookup rest k

/-- The statement `m[k] = v`: overwrite the value held under `k`, or add the pair. -/
def assign (m : GoMap) (k v : String) : GoMap :=
  match m with
  | [] => [(k, v)]
  | (k', v') :: rest => if k' = k then (k, v) :: rest else (k', v') :: assign rest k v

/-- The key set of a map. -/
def keys (m : GoMap) : List String := m.map Prod.fst

/-- Go `len(m)`. -/
def len (m : GoMap) : Nat := m.length

/-- The record type `MapperEntry` (handler.go, lines 42-45). -/
structure MapperEntry where
  Path : String
  Url : String
deriving DecidableEq, Repr

/-- An `http.Handler`: `ServeHTTP(writer, request)` acting on the state `σ`. -/
abbrev Handler (W R σ : Type) := W → R → σ → σ

/-- The part of `net/http` and `net/url` that handler.go calls. -/
structure Http (W R σ : Type) where
  /-- The value of `request.URL.String()`. -/
  urlString : R → String
  /-- The call `http.Redirect(writer, request, url, code)`. -/
  Redirect : W → R → String → Nat → σ → σ

/-! ## The two functions of handler.go -/

/-- The function `MapHandler` (handler.go, lines 14-23). -/
def MapHandler {W R σ : Type} (lib : Http W R σ) (pathsToUrls : GoMap)
    (fallback : Handler W R σ) : Handler W R σ :=
  fun writer request s =>
    let from_ := lib.urlString request
    match lookup pathsToUrls from_ with
    | some to_ => lib.Redirect writer request to_ 302 s
    | none => fallback writer request s

/-- The loop of `YAMLHandler` (handler.go, lines 52-55): starting from the
empty map `make(map[string]string, len(yamlOut))`, run
`mapper[entry.Path] = entry.Url` over the records in order. -/
def mapper (yamlOut : List MapperEntry) : GoMap :=
  yamlOut.foldl (fun m entry => assign m entry.Path entry.Url) []

/-- The first part of `YAMLHandler` (handler.go, lines 48-55): decode, return
the decoder's error when it is not nil, build the map otherwise. `unmarshal yml`
is the pair of the value `yaml.Unmarshal(yml, &yamlOut)` leaves in `yamlOut`
and the error it returns (`none` for nil). -/
def yamlMapper {B E : Type} (unmarshal : B → List MapperEntry × Option E) (yml : B) :
    Except E GoMap :=
  match unmarshal yml with
  | (_, some e) => Except.error e
  | (yamlOut, none) => Except.ok (mapper yamlOut)

/-- The function `YAMLHandler` (handler.go, lines 47-58): the returned pair
`(http.HandlerFunc, error)`, `none` standing for nil. -/
def YAMLHandler {W R σ B E : Type} (lib : Http W R σ)
    (unmarshal : B → List MapperEntry × Option E) (yml : B) (fallback : Handler W R σ) :
    Option (Handler W R σ) × Option E :=
  match yamlMapper unmarshal yml with
  | Except.error e => (none, some e)
  | Except.ok m => (some (MapHandler lib m fallback), none)

/-! ## Observing calls -/

/-- A call made by a handler of handler.go. -/
inductive Call (W R : Type) where
  | Redirect (writer : W) (request : R) (url : String) (code : Nat)
  | ServeHTTP (writer : W) (request : R)
deriving DecidableEq, Repr

/-- The library with every `http.Redirect` call recorded in a log. -/
def logged {W R σ : Type} (lib : Http W R σ) : Http W R (σ × List (Call W R)) where
  urlString := lib.urlString
  Redirect := fun w r url code s => (lib.Redirect w r url code s.1, s.2 ++ [Call.Redirect w r url code])

/-- A fallback handler with every `ServeHTTP` call on it recorded in the log. -/
def loggedHandler {W R σ : Type} (F : Handler W R σ) : Handler W R (σ × List (Call W R)) :=
  fun w r s => (F w r s.1, s.2 ++ [Call.ServeHTTP w r])

/-- Serve a sequence of requests one after the other with the same handler. -/
def serveAll {W R σ : Type} (h : Handler W R σ) (reqs : List (W × R)) (s : σ) : σ :=
  reqs.foldl (fun st q => h q.1 q.2 st) s

/-! ## Fixtures for the concrete scenarios -/

/-- A library instance whose requests are their own URL strings and whose
`http.Redirect` has no effect on the (trivial) state. -/
def plainHttp : Http String String Unit where
  urlString := fun r => r
  Redirect := fun _ _ _ _ s => s

/-- A fallback with no effect on the trivial state. -/
def plainFallback : Handler String String Unit := fun _ _ s => s

/-- The record of the concrete scenario. -/
def godocEntry : MapperEntry :=
  { Path := "/urlshort-godoc", Url := "https://godoc.org/github.com/gophercises/urlshort" }

/-- The one-record document of the scenario. -/
def godocYaml : String :=
  "- path: /urlshort-godoc\n  url: https://godoc.org/github.com/gophercises/urlshort\n"

/-- A decoder fixture: the outcome of `yaml.Unmarshal` on `godocYaml`, and an
error on every other input. -/
def godocUnmarshal (yml : String) : List MapperEntry × Option String :=
  if yml = godocYaml then ([godocEntry], none) else ([], some "yaml: unmarshal errors")

/-- A decoder fixture that reports an error after it has filled `yamlOut`
with one record (partial decoding). -/
def partialUnmarshal (_yml : String) : List MapperEntry × Option String :=
  ([{ Path := "/a", Url := "https://example.com" }], some "yaml: unmarshal errors")

/-- The outcomes of two runs of the decode-and-fold step agree: both fail, or
both succeed with maps that have the same keys and the same value at every key. -/
def Agree {E : Type} (r1 r2 : Except E GoMap) : Prop :=
  (∃ e1 e2, r1 = Except.error e1 ∧ r2 = Except.error e2) ∨
  (∃ m1 m2, r1 = Except.ok m1 ∧ r2 = Except.ok m2 ∧
    (∀ k, k ∈ keys m1 ↔ k ∈ keys m2) ∧ (∀ k, lookup m1 k = lookup m2 k))

/-! ## The map as a shared object

A Go map is a reference: the closure returned by `MapHandler` holds the map
the caller passed, not a copy, and reads it when a request arrives. The
definitions of this section keep the map in the state, next to what the
handlers act on, so that a fallback that shares the map can write it. -/

/-- The library on a state that holds the map as well: `net/http` has no
reference to the map and leaves it as it is. -/
def withMap {W R σ : Type} (lib : Http W R σ) : Http W R (GoMap × σ) where
  urlString := lib.urlString
  Redirect := fun w r url code s => (s.1, lib.Redirect w r url code s.2)

/-- The closure returned by `MapHandler` (handler.go, lines 15-22) on the
shared map: the lookup of line 17 reads what the map holds when the request
arrives, `s.1`, and the fallback acts on the state the map is part of. -/
def MapHandlerRef {W R σ : Type} (lib : Http W R σ) (fallback : Handler W R (GoMap × σ)) :
    Handler W R (GoMap × σ) :=
  fun writer request s => MapHandler (withMap lib) s.1 fallback writer request s

/-- A fallback that shares the map, with every `ServeHTTP` call on it recorded. -/
def loggedRef {W R σ : Type} (F : Handler W R (GoMap × σ)) :
    Handler W R (GoMap × (σ × List (Call W R))) :=
  fun w r s => ((F w r (s.1, s.2.1)).1, ((F w r (s.1, s.2.1)).2, s.2.2 ++ [Call.ServeHTTP w r]))

/-- The calls made for one request handled alone, the map holding `M`. -/
def callsAlone {W R σ : Type} (lib : Http W R σ) (F : Handler W R (GoMap × σ)) (M : GoMap)
    (s0 : σ) (q : W × R) : List (Call W R) :=
  (MapHandlerRef (logged lib) (loggedRef F) q.1 q.2 (M, (s0, []))).2.2

/-- A fallback that shares the map and enters the missed path in it. -/
def learningFallback : Handler String String (GoMap × Unit) :=
  fun _ r s => (assign s.1 r "https://example.com", s.2)

/-! ## Two runs of the decode-and-fold step

Go leaves the order of the entries of a map open, and a call of a library
function acts on the state of the program. The definitions of this section
make both explicit: a new entry goes to the place a layout names, and the
decoder is a function of the document and the state. -/

/-- The statement `m[k] = v` when the runtime puts a new entry at `place`. -/
def assignAt (place : Nat) (m : GoMap) (k v : String) : GoMap :=
  if k ∈ keys m then assign m k v else m.take place ++ (k, v) :: m.drop place

/-- The loop of `YAMLHandler` (handler.go, lines 53-55) from the map `m`, the
place of the entry each iteration may add being taken from `layout`. -/
def mapperAt : List Nat → List MapperEntry → GoMap → GoMap
  | _, [], m => m
  | layout, entry :: rest, m =>
    mapperAt layout.tail rest (assignAt (layout.headD 0) m entry.Path entry.Url)

/-- The first part of `YAMLHandler` (handler.go, lines 48-55) as a step on the
state `s`: the call of `yaml.Unmarshal`, then the loop. The result is the
outcome and the state the step leaves. -/
def yamlMapperRun {B E σ : Type} (unmarshal : B → σ → (List MapperEntry × Option E) × σ)
    (layout : List Nat) (yml : B) (s : σ) : Except E GoMap × σ :=
  match unmarshal yml s with
  | ((_, some e), s') => (Except.error e, s')
  | ((yamlOut, none), s') => (Except.ok (mapperAt layout yamlOut []), s')

/-- A decoder fixture on a state that counts nothing and is left as it is. -/
def godocUnmarshalRun (yml : String) (s : Nat) : (List MapperEntry × Option String) × Nat :=
  (godocUnmarshal yml, s)

/-! ## The decoder

`yaml.Unmarshal` belongs to gopkg.in/yaml.v2, a dependency of the repository;
`YAMLHandler` above takes it as a parameter. The definitions of this section
follow the decoder of that package (decode.go: `unmarshal`, `scalar`,
`sequence`, `mappingStruct`, `merge`) for the target `[]MapperEntry`, on a
document given by its nodes, for documents without anchors, aliases and
explicit tags and with scalar keys.

* A key of a mapping sets the field that carries its name in the `yaml` tag;
  a field whose key is absent keeps what it held, Go's zero value at first; a
  key with no field is ignored.
* A null sets a string, a record or the slice to its zero value; any other
  scalar sets a string to its text.
* A value that cannot be decoded into its target is recorded and decoding
  goes on; the records that could not be decoded are left out of the slice,
  and a `*yaml.TypeError` is returned at the end when something was recorded.
* A merge key whose value is not a mapping or a sequence of mappings stops
  the decoding with an error. -/

/-- A key of a mapping. -/
inductive YamlKey where
  /-- The merge key `<<`. -/
  | merge
  /-- Any other scalar key, with its text. -/
  | name (text : String)

/-- A node of a YAML document. -/
inductive YamlNode where
  /-- A scalar that resolves to null: `~`, `null`, or nothing at all. -/
  | null
  /-- Any other scalar (a string, a boolean, a number), with its text. -/
  | scalar (value : String)
  | seq (items : List YamlNode)
  | map (pairs : List (YamlKey × YamlNode))

/-- The errors `yaml.Unmarshal` returns on a document that has nodes. -/
inductive YamlError where
  /-- A `*yaml.TypeError` for `count` values that could not be decoded. -/
  | typeError (count : Nat)
  /-- The error of a merge key whose value is no mapping or sequence of mappings. -/
  | mergeError
deriving DecidableEq, Repr

/-- Decoding of the node `n` into a string field that holds `field`: the
value of the field afterwards and the number of type errors recorded. -/
def yamlString (n : YamlNode) (field : String) : String × Nat :=
  match n with
  | YamlNode.null => ("", 0)
  | YamlNode.scalar v => (v, 0)
  | YamlNode.seq _ => (field, 1)
  | YamlNode.map _ => (field, 1)

/-- Decoding of the value `v` of the key `k` into the record `out`. -/
def yamlField (k : String) (v : YamlNode) (out : MapperEntry) : MapperEntry × Nat :=
  if k = "path" then
    ({ out with Path := (yamlString v out.Path).1 }, (yamlString v out.Path).2)
  else if k = "url" then
    ({ out with Url := (yamlString v out.Url).1 }, (yamlString v out.Url).2)
  else (out, 0)

mutual
/-- Decoding of the pairs of a mapping into the record `out`, in order: the
record afterwards and the number of type errors recorded, or `none` when a
merge stops the decoding. -/
def mappingStruct : List (YamlKey × YamlNode) → MapperEntry → Option (MapperEntry × Nat)
  | [], out => some (out, 0)
  | (YamlKey.merge, v) :: rest, out =>
    match merge v out with
    | none => none
    | some (out1, n1) =>
      match mappingStruct rest out1 with
      | none => none
      | some (out2, n2) => some (out2, n1 + n2)
  | (YamlKey.name k, v) :: rest, out =>
    match mappingStruct rest (yamlField k v out).1 with
    | none => none
    | some (out2, n2) => some (out2, (yamlField k v out).2 + n2)
/-- The value of a merge key decoded into the record `out`. -/
def merge : YamlNode → MapperEntry → Option (MapperEntry × Nat)
  | YamlNode.map pairs, out => mappingStruct pairs out
  | YamlNode.seq items, out => mergeSeq items out
  | YamlNode.null, _ => none
  | YamlNode.scalar _, _ => none
/-- The mappings of a sequence merged into the record `out`, the last one first. -/
def mergeSeq : List YamlNode → MapperEntry → Option (MapperEntry × Nat)
  | [], out => some (out, 0)
  | n :: rest, out =>
    match mergeSeq rest out with
    | none => none
    | some (out1, n1) =>
      match n with
      | YamlNode.map pairs =>
        match mappingStruct pairs out1 with
        | none => none
        | some (out2, n2) => some (out2, n1 + n2)
      | _ => none
end

/-- Decoding of an item of the document into a fresh record: the record when
the item is kept in the slice, and the number of type errors recorded, or
`none` when a merge stops the decoding. -/
def yamlEntry : YamlNode → Option (Option MapperEntry × Nat)
  | YamlNode.null => some (some { Path := "", Url := "" }, 0)
  | YamlNode.scalar _ => some (none, 1)
  | YamlNode.seq _ => some (none, 1)
  | YamlNode.map pairs =>
    match mappingStruct pairs { Path := "", Url := "" } with
    | none => none
    | some (out, n) => some (some out, n)

/-- Decoding of the items of the document, `done` being the records kept so
far and `count` the type errors so far: the records kept and the number of
type errors, `none` when a merge stopped the decoding. -/
def yamlSequence : List YamlNode → List MapperEntry → Nat → List MapperEntry × Option Nat
  | [], done, count => (done, some count)
  | n :: rest, done, count =>
    match yamlEntry n with
    | none => (done, none)
    | some (some out, c) => yamlSequence rest (done ++ [out]) (count + c)
    | some (none, c) => yamlSequence rest done (count + c)

/-- The call `yaml.Unmarshal(yml, &yamlOut)` with `yamlOut` nil, on the
document `yml` (`none` for a document with no node): what it leaves in
`yamlOut` and the error it returns. -/
def yamlUnmarshal : Option YamlNode → List MapperEntry × Option YamlError
  | none => ([], none)
  | some YamlNode.null => ([], none)
  | some (YamlNode.scalar _) => ([], some (YamlError.typeError 1))
  | some (YamlNode.map _) => ([], some (YamlError.typeError 1))
  | some (YamlNode.seq items) =>
    match yamlSequence items [] 0 with
    | (done, none) =>
      (done ++ List.replicate (items.length - done.length) { Path := "", Url := "" },
        some YamlError.mergeError)
    | (done, some 0) => (done, none)
    | (done, some (c + 1)) => (done, some (YamlError.typeError (c + 1)))

/-- A record written with scalar keys other than the merge key and with null
(`none`) or scalar values, as a node. -/
def plainRecord (rec : List (String × Option String)) : YamlNode :=
  YamlNode.map (rec.map fun kv =>
    (YamlKey.name kv.1, match kv.2 with
      | none => YamlNode.null
      | some v => YamlNode.scalar v))

/-- The value a plain record gives to the field `name`: that of the last pair
with that key, empty for a null, and `cur` when no pair has the key. -/
def fieldOf (name : String) (cur : String) (rec : List (String × Option String)) : String :=
  rec.foldl (fun c kv => if kv.1 = name then kv.2.getD "" else c) cur

/-- The `MapperEntry` a plain record stands for, absent fields being empty. -/
def entryOf (rec : List (String × Option String)) : MapperEntry :=
  { Path := fieldOf "path" "" rec, Url := fieldOf "url" "" rec }

/-- A value of a `path` or `url` key that is a sequence or a mapping. -/
def IllTyped (kv : YamlKey × YamlNode) : Prop :=
  (kv.1 = YamlKey.name "path" ∨ kv.1 = YamlKey.name "url") ∧
    ((∃ items, kv.2 = YamlNode.seq items) ∨ (∃ pairs, kv.2 = YamlNode.map pairs))

/-- The document with the one record `path: /a`, which has no `url`. -/
def missingUrlDoc : Option YamlNode :=
  some (YamlNode.seq [YamlNode.map [(YamlKey.name "path", YamlNode.scalar "/a")]])

/-- The document with the one record `path: /a`, `url: ~`, whose `url` is null. -/
def nullUrlDoc : Option YamlNode :=
  some (YamlNode.seq [YamlNode.map
    [(YamlKey.name "path", YamlNode.scalar "/a"), (YamlKey.name "url", YamlNode.null)]])

/-- The document with the one record `path: /a`, `url: 5`, whose `url` is an integer. -/
def intUrlDoc : Option YamlNode :=
  some (YamlNode.seq [YamlNode.map
    [(YamlKey.name "path", YamlNode.scalar "/a"), (YamlKey.name "url", YamlNode.scalar "5")]])

/-! ## Lemmas on maps -/

theorem lookup_eq_none_iff (m : GoMap) (k : String) : lookup m k = none ↔ k ∉ keys m := by
  induction m with
  | nil => simp [lookup, keys]
  | cons p rest ih =>
    obtain ⟨k', v⟩ := p
    by_cases h : k' = k
    · simp [lookup, keys, h]
    · have h' : ¬ k = k' := fun e => h e.symm
      simp only [keys] at ih
      simp [lookup, keys, h, h', ih]

theorem lookup_isSome_of_mem (m : GoMap) (k : String) (h : k ∈ keys m) :
    ∃ v, lookup m k = some v := by
  cases hl : lookup m k with
  | none => exact absurd h ((lookup_eq_none_iff m k).mp hl)
  | some v => exact ⟨v, rfl⟩

theorem mem_keys_of_lookup (m : GoMap) (k v : String) (h : lookup m k = some v) :
    k ∈ keys m := by
  by_contra hk
  rw [(lookup_eq_none_iff m k).mpr hk] at h
  exact Option.noConfusion h

theorem mem_keys_assign (m : GoMap) (k v x : String) :
    x ∈ keys (assign m k v) ↔ x = k ∨ x ∈ keys m := by
  induction m with
  | nil => simp [assign, keys]
  | cons p rest ih =>
    obtain ⟨k', v'⟩ := p
    simp only [keys] at ih
    by_cases h : k' = k
    · subst h
      simp [assign, keys]
    · simp only [assign, h, if_false, keys, List.map_cons, List.mem_cons, ih]
      tauto

theorem lookup_assign_same (m : GoMap) (k v : String) : lookup (assign m k v) k = some v := by
  induction m with
  | nil => simp [assign, lookup]
  | cons p rest ih =>
    obtain ⟨k', v'⟩ := p
    by_cases h : k' = k
    · simp [assign, lookup, h]
    · simp [assign, lookup, h, ih]

theorem lookup_assign_ne (m : GoMap) (k v x : String) (hx : k ≠ x) :
    lookup (assign m k v) x = lookup m x := by
  induction m with
  | nil => simp [assign, lookup, hx]
  | cons p rest ih =>
    obtain ⟨k', v'⟩ := p
    by_cases h : k' = k
    · subst h
      simp [assign, lookup, hx]
    · by_cases h2 : k' = x
      · subst h2
        simp [assign, lookup, h]
      · simp [assign, lookup, h, h2, ih]

theorem nodup_keys_assign (m : GoMap) (k v : String) (h : (keys m).Nodup) :
    (keys (assign m k v)).Nodup := by
  induction m with
  | nil => simp [assign, keys]
  | cons p rest ih =>
    obtain ⟨k', v'⟩ := p
    simp only [keys, List.map_cons, List.nodup_cons] at h
    by_cases hk : k' = k
    · subst hk
      simpa [assign, keys] using h
    · have hmem : k' ∉ keys (assign rest k v) := by
        rw [mem_keys_assign]
        rintro (e | e)
        · exact hk e
        · exact h.1 e
      have hrest := ih h.2
      simp only [assign, hk, if_false, keys, List.map_cons, List.nodup_cons]
      exact ⟨hmem, hrest⟩

theorem len_assign_le (m : GoMap) (k v : String) : len (assign m k v) ≤ len m + 1 := by
  induction m with
  | nil => simp [assign, len]
  | cons p rest ih =>
    obtain ⟨k', v'⟩ := p
    simp only [len] at ih
    by_cases h : k' = k
    · simp [assign, len, h]
    · simp [assign, len, h, ih]

theorem mapper_append (ys : List MapperEntry) (e : MapperEntry) :
    mapper (ys ++ [e]) = assign (mapper ys) e.Path e.Url := by
  simp [mapper, List.foldl_append]

theorem len_mapper_le (ys : List MapperEntry) : len (mapper ys) ≤ ys.length := by
  induction ys using List.reverseRecOn with
  | nil => simp [mapper, len]
  | append_singleton ys e ih =>
    rw [mapper_append]
    have := len_assign_le (mapper ys) e.Path e.Url
    simp only [List.length_append, List.length_singleton]
    omega

theorem nodup_keys_mapper (ys : List MapperEntry) : (keys (mapper ys)).Nodup := by
  induction ys using List.reverseRecOn with
  | nil => simp [mapper, keys]
  | append_singleton ys e ih =>
    rw [mapper_append]
    exact nodup_keys_assign _ _ _ ih

theorem mem_keys_mapper (ys : List MapperEntry) (k : String) :
    k ∈ keys (mapper ys) ↔ ∃ e ∈ ys, e.Path = k := by
  induction ys using List.reverseRecOn with
  | nil => simp [mapper, keys]
  | append_singleton ys e ih =>
    rw [mapper_append, mem_keys_assign, ih]
    constructor
    · rintro (h | ⟨e', he', hp⟩)
      · exact ⟨e, by simp, h.symm⟩
      · exact ⟨e', by simp [he'], hp⟩
    · rintro ⟨e', he', hp⟩
      rcases List.mem_append.mp he' with h | h
      · exact Or.inr ⟨e', h, hp⟩
      · simp only [List.mem_singleton] at h
        subst h
        exact Or.inl hp.symm

theorem lookup_mapper_last (ys : List MapperEntry) (i : Nat) (e : MapperEntry)
    (hi : ys[i]? = some e)
    (hlast : ∀ j e', i < j → ys[j]? = some e' → e'.Path ≠ e.Path) :
    lookup (mapper ys) e.Path = some e.Url := by
  induction ys using List.reverseRecOn with
  | nil => simp at hi
  | append_singleton ys x ih =>
    rw [mapper_append]
    by_cases hlt : i < ys.length
    · have hi' : ys[i]? = some e := by
        rw [List.getElem?_append_left hlt] at hi
        exact hi
      have hx : (ys ++ [x])[ys.length]? = some x := by simp
      have hne : x.Path ≠ e.Path := hlast ys.length x hlt hx
      rw [lookup_assign_ne _ _ _ _ hne]
      apply ih hi'
      intro j e' hij hj
      apply hlast j e' hij
      have hjlt : j < ys.length := by
        by_contra hge
        rw [List.getElem?_eq_none (Nat.le_of_not_lt hge)] at hj
        exact Option.noConfusion hj
      rw [List.getElem?_append_left hjlt]
      exact hj
    · have hile : ys.length ≤ i := Nat.le_of_not_lt hlt
      rw [List.getElem?_append_right hile] at hi
      have hx : x = e := by
        cases hd : i - ys.length with
        | zero => rw [hd] at hi; simpa using hi
        | succ n => rw [hd] at hi; simp at hi
      subst hx
      exact lookup_assign_same _ _ _

theorem exists_last_record (ys : List MapperEntry) (k : String)
    (h : ∃ e ∈ ys, e.Path = k) :
    ∃ (i : Nat) (e : MapperEntry), ys[i]? = some e ∧ e.Path = k ∧
      ∀ (j : Nat) (e' : MapperEntry), i < j → ys[j]? = some e' → e'.Path ≠ k := by
  induction ys using List.reverseRecOn with
  | nil => simp at h
  | append_singleton ys x ih =>
    by_cases hx : x.Path = k
    · refine ⟨ys.length, x, by simp, hx, ?_⟩
      intro j e' hj hget
      have hnone : (ys ++ [x])[j]? = none := List.getElem?_eq_none (by simp; omega)
      rw [hnone] at hget
      exact Option.noConfusion hget
    · have hys : ∃ e ∈ ys, e.Path = k := by
        obtain ⟨e, he, hp⟩ := h
        rcases List.mem_append.mp he with h1 | h1
        · exact ⟨e, h1, hp⟩
        · simp only [List.mem_singleton] at h1
          subst h1
          exact absurd hp hx
      obtain ⟨i, e, hi, hp, hlast⟩ := ih hys
      have hilt : i < ys.length := by
        by_contra hge
        rw [List.getElem?_eq_none (Nat.le_of_not_lt hge)] at hi
        exact Option.noConfusion hi
      refine ⟨i, e, by rw [List.getElem?_append_left hilt]; exact hi, hp, ?_⟩
      intro j e' hij hget
      by_cases hjlt : j < ys.length
      · rw [List.getElem?_append_left hjlt] at hget
        exact hlast j e' hij hget
      · rw [List.getElem?_append_right (Nat.le_of_not_lt hjlt)] at hget
        have he' : e' = x := by
          cases hd : j - ys.length with
          | zero => rw [hd] at hget; simpa using hget.symm
          | succ n => rw [hd] at hget; simp at hget
        subst he'
        exact hx

/-! ## `MapHandler`: hit and miss -/

/-- C1: for every mapping `M`, fallback `F` and request whose lookup key
(the string form of the request URL) is a key of `M`, the handler returned by
`MapHandler M F` has exactly the effect of one call
`http.Redirect(writer, request, M[K], 302)` on the original writer and request,
whatever `F` is; with calls recorded, the log gains that one redirect and no
`ServeHTTP` call on `F`. -/
theorem MapHandler_hit_redirects {W R σ : Type} (lib : Http W R σ) (M : GoMap)
    (F : Handler W R σ) (w : W) (r : R) (s : σ) (log : List (Call W R))
    (hK : lib.urlString r ∈ keys M) :
    ∃ target, lookup M (lib.urlString r) = some target ∧
      MapHandler lib M F w r s = lib.Redirect w r target 302 s ∧
      MapHandler (logged lib) M (loggedHandler F) w r (s, log)
        = (lib.Redirect w r target 302 s, log ++ [Call.Redirect w r target 302]) := by
  obtain ⟨target, ht⟩ := lookup_isSome_of_mem M _ hK
  refine ⟨target, ht, ?_, ?_⟩
  · simp only [MapHandler, ht]
  · simp only [MapHandler, logged, ht]

/-- Witness of C1: with `/a` mapped to `https://example.com`, a request for `/a`
is answered by one redirect call with status 302 to that URL. -/
theorem MapHandler_hit_redirects_witness :
    "/a" ∈ keys [("/a", "https://example.com")] ∧
    MapHandler (logged plainHttp) [("/a", "https://example.com")]
        (loggedHandler plainFallback) "w" "/a" ((), [])
      = ((), [Call.Redirect "w" "/a" "https://example.com" 302]) := by
  have hK : plainHttp.urlString "/a" ∈ keys [("/a", "https://example.com")] := by
    simp [plainHttp, keys]
  obtain ⟨target, h1, _, h3⟩ :=
    MapHandler_hit_redirects plainHttp [("/a", "https://example.com")] plainFallback
      "w" "/a" () [] hK
  have ht : target = "https://example.com" := by
    have h0 : lookup [("/a", "https://example.com")] (plainHttp.urlString "/a")
        = some "https://example.com" := by simp [lookup, plainHttp]
    rw [h0] at h1
    exact (Option.some.inj h1).symm
  subst ht
  exact ⟨by simp [keys], h3⟩

/-- C2: for every mapping `M`, fallback `F` and request whose lookup key is
not a key of `M`, the handler returned by `MapHandler M F` has exactly the
effect of one call `F.ServeHTTP(writer, request)` on the original writer and
request; with calls recorded, the log gains that one `ServeHTTP` call and no
redirect. -/
theorem MapHandler_miss_calls_fallback {W R σ : Type} (lib : Http W R σ) (M : GoMap)
    (F : Handler W R σ) (w : W) (r : R) (s : σ) (log : List (Call W R))
    (hK : lib.urlString r ∉ keys M) :
    MapHandler lib M F w r s = F w r s ∧
    MapHandler (logged lib) M (loggedHandler F) w r (s, log)
      = (F w r s, log ++ [Call.ServeHTTP w r]) := by
  have hn : lookup M (lib.urlString r) = none := (lookup_eq_none_iff M _).mpr hK
  constructor
  · simp only [MapHandler, hn]
  · simp only [MapHandler, logged, loggedHandler, hn]

/-- Witness of C2: with only `/a` mapped, a request for `/b` goes to the
fallback once and no redirect is made. -/
theorem MapHandler_miss_calls_fallback_witness :
    "/b" ∉ keys [("/a", "https://example.com")] ∧
    MapHandler (logged plainHttp) [("/a", "https://example.com")]
        (loggedHandler plainFallback) "w" "/b" ((), [])
      = ((), [Call.ServeHTTP "w" "/b"]) := by
  have hK : plainHttp.urlString "/b" ∉ keys [("/a", "https://example.com")] := by
    simp [plainHttp, keys]
  exact ⟨by simp [keys],
    (MapHandler_miss_calls_fallback plainHttp [("/a", "https://example.com")] plainFallback
      "w" "/b" () [] hK).2⟩

/-! ## `YAMLHandler`: the map built from the records -/

/-- C3: for every decoded sequence of `N` records, the map built by the loop of
`YAMLHandler` has at most `N` entries, holds no key twice, has as keys exactly
the paths of the records, and maps the path of a record to that record's `Url`
whenever no record of higher index carries the same path (last wins); every
key of the map has such a last record. -/
theorem mapper_last_wins (yamlOut : List MapperEntry) :
    len (mapper yamlOut) ≤ yamlOut.length ∧
    (keys (mapper yamlOut)).Nodup ∧
    (∀ k, k ∈ keys (mapper yamlOut) ↔ ∃ e ∈ yamlOut, e.Path = k) ∧
    (∀ (i : Nat) (e : MapperEntry), yamlOut[i]? = some e →
      (∀ (j : Nat) (e' : MapperEntry), i < j → yamlOut[j]? = some e' → e'.Path ≠ e.Path) →
      lookup (mapper yamlOut) e.Path = some e.Url) ∧
    (∀ k, k ∈ keys (mapper yamlOut) →
      ∃ (i : Nat) (e : MapperEntry), yamlOut[i]? = some e ∧ e.Path = k ∧
        (∀ (j : Nat) (e' : MapperEntry), i < j → yamlOut[j]? = some e' → e'.Path ≠ k) ∧
        lookup (mapper yamlOut) k = some e.Url) := by
  refine ⟨len_mapper_le yamlOut, nodup_keys_mapper yamlOut, mem_keys_mapper yamlOut,
    fun i e hi hlast => lookup_mapper_last yamlOut i e hi hlast, ?_⟩
  intro k hk
  obtain ⟨i, e, hi, hp, hlast⟩ := exists_last_record yamlOut k ((mem_keys_mapper yamlOut k).mp hk)
  refine ⟨i, e, hi, hp, hlast, ?_⟩
  have := lookup_mapper_last yamlOut i e hi (fun j e' hij hj => hp ▸ hlast j e' hij hj)
  rw [hp] at this
  exact this

/-- Concrete run of C3: three records, two of them for `/a`; the map has two
entries and `/a` is mapped to the url of the later record. -/
theorem mapper_last_wins_witness :
    mapper [⟨"/a", "1"⟩, ⟨"/b", "2"⟩, ⟨"/a", "3"⟩] = [("/a", "3"), ("/b", "2")] ∧
    len (mapper [⟨"/a", "1"⟩, ⟨"/b", "2"⟩, ⟨"/a", "3"⟩]) ≤ 3 ∧
    lookup (mapper [⟨"/a", "1"⟩, ⟨"/b", "2"⟩, ⟨"/a", "3"⟩]) "/a" = some "3" := by
  have h := mapper_last_wins [⟨"/a", "1"⟩, ⟨"/b", "2"⟩, ⟨"/a", "3"⟩]
  refine ⟨by simp [mapper, assign], h.1, ?_⟩
  refine h.2.2.2.1 2 ⟨"/a", "3"⟩ (by simp) ?_
  intro j e' hj hget
  have hnone : ([⟨"/a", "1"⟩, ⟨"/b", "2"⟩, ⟨"/a", "3"⟩] : List MapperEntry)[j]? = none :=
    List.getElem?_eq_none (by simpa using hj)
  rw [hnone] at hget
  exact Option.noConfusion hget

/-! ## `YAMLHandler`: errors -/

/-- C4: `YAMLHandler` returns a non-nil error exactly when `yaml.Unmarshal`
does; then the error is the decoder's, the handler is nil whatever the fallback
and whatever the decoder left in `yamlOut`, and no map is built; otherwise the
error is nil and the handler is `MapHandler` over the map of the decoded records. -/
theorem YAMLHandler_error_iff {W R σ B E : Type} (lib : Http W R σ)
    (unmarshal : B → List MapperEntry × Option E) (yml : B) (F : Handler W R σ) :
    ((YAMLHandler lib unmarshal yml F).2 ≠ none ↔ (unmarshal yml).2 ≠ none) ∧
    (∀ e, (unmarshal yml).2 = some e →
      yamlMapper unmarshal yml = Except.error e ∧
      ∀ F' : Handler W R σ, YAMLHandler lib unmarshal yml F' = (none, some e)) ∧
    ((unmarshal yml).2 = none →
      YAMLHandler lib unmarshal yml F
        = (some (MapHandler lib (mapper (unmarshal yml).1) F), none) ∧
      (YAMLHandler lib unmarshal yml F).1 ≠ none) := by
  rcases hu : unmarshal yml with ⟨out, _ | e⟩
  · simp [YAMLHandler, yamlMapper, hu]
  · simp [YAMLHandler, yamlMapper, hu]

/-- Concrete run of C4: a decoder that fails after filling one record gives a
nil handler and its own error. -/
theorem YAMLHandler_error_iff_witness :
    (partialUnmarshal "- path: [").1 ≠ [] ∧
    YAMLHandler plainHttp partialUnmarshal "- path: [" plainFallback
      = (none, some "yaml: unmarshal errors") :=
  ⟨by simp [partialUnmarshal],
    ((YAMLHandler_error_iff plainHttp partialUnmarshal "- path: [" plainFallback).2.1
      "yaml: unmarshal errors" rfl).2 plainFallback⟩

/-! ## The lookup key -/

/-- C6: the lookup key is `request.URL.String()` as a whole and is matched by
string equality: for every mapping with key `/a` and without key `/a?x=1`, a
request whose URL string is `/a?x=1` goes to the fallback (one `ServeHTTP`
call, no redirect) and a request whose URL string is `/a` is redirected to
the value under `/a` with status 302 (one redirect, no `ServeHTTP` call). -/
theorem MapHandler_key_is_url_string {W R σ : Type} (lib : Http W R σ) (M : GoMap)
    (F : Handler W R σ) (w : W) (r1 r2 : R) (s : σ) (log : List (Call W R))
    (ha : "/a" ∈ keys M) (hq : "/a?x=1" ∉ keys M)
    (h1 : lib.urlString r1 = "/a?x=1") (h2 : lib.urlString r2 = "/a") :
    MapHandler (logged lib) M (loggedHandler F) w r1 (s, log)
      = (F w r1 s, log ++ [Call.ServeHTTP w r1]) ∧
    ∃ target, lookup M "/a" = some target ∧
      MapHandler (logged lib) M (loggedHandler F) w r2 (s, log)
        = (lib.Redirect w r2 target 302 s, log ++ [Call.Redirect w r2 target 302]) := by
  obtain ⟨target, ht⟩ := lookup_isSome_of_mem M _ ha
  have hn : lookup M "/a?x=1" = none := (lookup_eq_none_iff M _).mpr hq
  refine ⟨?_, target, ht, ?_⟩
  · simp only [MapHandler, logged, loggedHandler, h1, hn]
  · simp only [MapHandler, logged, h2, ht]

/-- Witness of C6: with only `/a` mapped, `/a?x=1` goes to the fallback. -/
theorem MapHandler_key_is_url_string_witness :
    MapHandler (logged plainHttp) [("/a", "https://example.com")]
        (loggedHandler plainFallback) "w" "/a?x=1" ((), [])
      = ((), [Call.ServeHTTP "w" "/a?x=1"]) :=
  (MapHandler_key_is_url_string plainHttp [("/a", "https://example.com")] plainFallback
    "w" "/a?x=1" "/a" () [] (by simp [keys]) (by simp [keys]) rfl rfl).1

/-! ## `YAMLHandler` end to end -/

/-- C7: for every document that `yaml.Unmarshal` decodes without error into
the records `yamlOut`, `YAMLHandler` returns a handler and a nil error; for a
request with lookup key `K` that handler makes the call
`http.Redirect(writer, request, url, 302)` with the `url` of the last record
whose path is `K` when there is one, and calls the fallback otherwise. -/
theorem YAMLHandler_end_to_end {W R σ B E : Type} (lib : Http W R σ)
    (unmarshal : B → List MapperEntry × Option E) (yml : B) (F : Handler W R σ)
    (yamlOut : List MapperEntry) (hD : unmarshal yml = (yamlOut, none)) :
    ∃ h, YAMLHandler lib unmarshal yml F = (some h, none) ∧
      ∀ (w : W) (r : R) (s : σ),
        (∀ (i : Nat) (e : MapperEntry), yamlOut[i]? = some e → e.Path = lib.urlString r →
          (∀ (j : Nat) (e' : MapperEntry), i < j → yamlOut[j]? = some e' →
            e'.Path ≠ lib.urlString r) →
          h w r s = lib.Redirect w r e.Url 302 s) ∧
        ((∀ e ∈ yamlOut, e.Path ≠ lib.urlString r) → h w r s = F w r s) := by
  refine ⟨MapHandler lib (mapper yamlOut) F, by simp [YAMLHandler, yamlMapper, hD], ?_⟩
  intro w r s
  constructor
  · intro i e hi hp hlast
    have hl : lookup (mapper yamlOut) e.Path = some e.Url :=
      lookup_mapper_last yamlOut i e hi (fun j e' hij hj => hp ▸ hlast j e' hij hj)
    rw [hp] at hl
    simp only [MapHandler, hl]
  · intro hno
    have hk : lib.urlString r ∉ keys (mapper yamlOut) := by
      rw [mem_keys_mapper]
      rintro ⟨e, he, hp⟩
      exact hno e he hp
    simp only [MapHandler, (lookup_eq_none_iff _ _).mpr hk]

/-- Witness of C7, the concrete scenario: the handler built from the one-record
document redirects `/urlshort-godoc` with status 302 and sends `/unknown` to
the fallback. -/
theorem YAMLHandler_end_to_end_witness :
    ∃ h, YAMLHandler (logged plainHttp) godocUnmarshal godocYaml (loggedHandler plainFallback)
        = (some h, none) ∧
      h "w" "/urlshort-godoc" ((), [])
        = ((), [Call.Redirect "w" "/urlshort-godoc"
                  "https://godoc.org/github.com/gophercises/urlshort" 302]) ∧
      h "w" "/unknown" ((), []) = ((), [Call.ServeHTTP "w" "/unknown"]) := by
  have hD : godocUnmarshal godocYaml = ([godocEntry], none) := by simp [godocUnmarshal]
  obtain ⟨h, hh, hspec⟩ :=
    YAMLHandler_end_to_end (logged plainHttp) godocUnmarshal godocYaml
      (loggedHandler plainFallback) [godocEntry] hD
  refine ⟨h, hh, ?_, ?_⟩
  · have := (hspec "w" "/urlshort-godoc" ((), [])).1 0 godocEntry (by simp)
      (by simp [godocEntry, logged, plainHttp]) (by
        intro j e' hj hget
        have hnone : ([godocEntry] : List MapperEntry)[j]? = none :=
          List.getElem?_eq_none (by simpa using hj)
        rw [hnone] at hget
        exact Option.noConfusion hget)
    simpa [logged, plainHttp, godocEntry] using this
  · have := (hspec "w" "/unknown" ((), [])).2 (by
      intro e he
      simp only [List.mem_singleton] at he
      subst he
      simp [godocEntry, logged, plainHttp])
    simpa [loggedHandler, plainFallback] using this

/-! ## Determinism -/

theorem lookup_assign (m : GoMap) (k v x : String) :
    lookup (assign m k v) x = if k = x then some v else lookup m x := by
  by_cases h : k = x
  · subst h
    simp [lookup_assign_same]
  · simp [h, lookup_assign_ne _ _ _ _ h]

theorem lookup_insert_at (place : Nat) (m : GoMap) (k v x : String) (hk : k ∉ keys m) :
    lookup (m.take place ++ (k, v) :: m.drop place) x
      = if k = x then some v else lookup m x := by
  induction m generalizing place with
  | nil => simp [lookup]
  | cons p rest ih =>
    obtain ⟨k', v'⟩ := p
    cases place with
    | zero => simp [lookup]
    | succ n =>
      have hk' : ¬ k = k' ∧ k ∉ keys rest := by simpa [keys] using hk
      simp only [List.take_succ_cons, List.drop_succ_cons, List.cons_append, lookup]
      by_cases h : k' = x
      · subst h
        simp [hk'.1]
      · simp [h, ih n hk'.2]

theorem lookup_assignAt (place : Nat) (m : GoMap) (k v x : String) :
    lookup (assignAt place m k v) x = if k = x then some v else lookup m x := by
  unfold assignAt
  split_ifs with hmem hkx hkx
  · rw [lookup_assign, if_pos hkx]
  · rw [lookup_assign, if_neg hkx]
  · rw [lookup_insert_at place m k v x hmem, if_pos hkx]
  · rw [lookup_insert_at place m k v x hmem, if_neg hkx]

theorem lookup_mapperAt (layout : List Nat) (ys : List MapperEntry) (m m' : GoMap)
    (h : ∀ x, lookup m x = lookup m' x) (x : String) :
    lookup (mapperAt layout ys m) x
      = lookup (ys.foldl (fun mp entry => assign mp entry.Path entry.Url) m') x := by
  induction ys generalizing layout m m' with
  | nil => simpa [mapperAt] using h x
  | cons e rest ih =>
    simp only [mapperAt, List.foldl_cons]
    apply ih
    intro y
    rw [lookup_assignAt, lookup_assign, h y]

theorem mem_keys_iff_lookup (m : GoMap) (k : String) : k ∈ keys m ↔ lookup m k ≠ none := by
  rw [Ne, lookup_eq_none_iff]
  exact not_not.symm

theorem agree_of_lookup {E : Type} (m1 m2 : GoMap) (h : ∀ x, lookup m1 x = lookup m2 x) :
    Agree (Except.ok m1 : Except E GoMap) (Except.ok m2) :=
  Or.inr ⟨m1, m2, rfl, rfl,
    fun k => by rw [mem_keys_iff_lookup, mem_keys_iff_lookup, h k], h⟩

/-- C8: the decode-and-fold step of `YAMLHandler` acts on the state through
the call of `yaml.Unmarshal` only; when that call is a function of the bytes
that leaves the state as it is, two runs of the step on the same bytes, from
any two states and with any two layouts of the map, leave their states as they
were and either both fail, with the decoder's error, or both succeed with maps
that have the same keys and the same value at every key, those of the map
`YAMLHandler` builds from the decoded records. -/
theorem yamlMapperRun_deterministic {B E σ : Type}
    (unmarshal : B → σ → (List MapperEntry × Option E) × σ) (yml : B) :
    (∀ (layout : List Nat) (s : σ),
      (yamlMapperRun unmarshal layout yml s).2 = (unmarshal yml s).2) ∧
    (∀ (dec : List MapperEntry × Option E), (∀ s, unmarshal yml s = (dec, s)) →
      ∀ (layout1 layout2 : List Nat) (s1 s2 : σ),
        (yamlMapperRun unmarshal layout1 yml s1).2 = s1 ∧
        (yamlMapperRun unmarshal layout2 yml s2).2 = s2 ∧
        Agree (yamlMapperRun unmarshal layout1 yml s1).1
          (yamlMapperRun unmarshal layout2 yml s2).1 ∧
        Agree (yamlMapperRun unmarshal layout1 yml s1).1 (yamlMapper (fun _ => dec) yml) ∧
        (∀ e, dec.2 = some e →
          (yamlMapperRun unmarshal layout1 yml s1).1 = Except.error e ∧
          (yamlMapperRun unmarshal layout2 yml s2).1 = Except.error e)) := by
  constructor
  · intro layout s
    unfold yamlMapperRun
    rcases unmarshal yml s with ⟨⟨out, _ | e⟩, s'⟩ <;> rfl
  · intro dec hpure layout1 layout2 s1 s2
    obtain ⟨out, err⟩ := dec
    cases err with
    | some e =>
      have h1 : yamlMapperRun unmarshal layout1 yml s1 = (Except.error e, s1) := by
        simp only [yamlMapperRun, hpure s1]
      have h2 : yamlMapperRun unmarshal layout2 yml s2 = (Except.error e, s2) := by
        simp only [yamlMapperRun, hpure s2]
      have h3 : yamlMapper (fun _ : B => (out, some e)) yml = Except.error e := by
        simp only [yamlMapper]
      rw [h1, h2, h3]
      refine ⟨rfl, rfl, Or.inl ⟨e, e, rfl, rfl⟩, Or.inl ⟨e, e, rfl, rfl⟩, ?_⟩
      intro e' he'
      have : e = e' := Option.some.inj he'
      subst this
      exact ⟨rfl, rfl⟩
    | none =>
      have h1 : yamlMapperRun unmarshal layout1 yml s1
          = (Except.ok (mapperAt layout1 out []), s1) := by
        simp only [yamlMapperRun, hpure s1]
      have h2 : yamlMapperRun unmarshal layout2 yml s2
          = (Except.ok (mapperAt layout2 out []), s2) := by
        simp only [yamlMapperRun, hpure s2]
      have h3 : yamlMapper (fun _ : B => (out, (none : Option E))) yml
          = Except.ok (mapper out) := by
        simp only [yamlMapper]
      have l1 : ∀ x, lookup (mapperAt layout1 out []) x = lookup (mapper out) x :=
        fun x => lookup_mapperAt layout1 out [] [] (fun _ => rfl) x
      have l2 : ∀ x, lookup (mapperAt layout2 out []) x = lookup (mapper out) x :=
        fun x => lookup_mapperAt layout2 out [] [] (fun _ => rfl) x
      rw [h1, h2, h3]
      refine ⟨rfl, rfl, agree_of_lookup _ _ (fun x => (l1 x).trans (l2 x).symm),
        agree_of_lookup _ _ l1, ?_⟩
      intro e' he'
      exact Option.noConfusion he'

/-- Witness of C8: two runs on the one-record document, from the states 0 and
7, the second with another layout. -/
theorem yamlMapperRun_deterministic_witness :
    (∀ s, godocUnmarshalRun godocYaml s = (([godocEntry], none), s)) ∧
    (yamlMapperRun godocUnmarshalRun [] godocYaml 0).2 = 0 ∧
    (yamlMapperRun godocUnmarshalRun [3, 1] godocYaml 7).2 = 7 ∧
    Agree (yamlMapperRun godocUnmarshalRun [] godocYaml 0).1
      (yamlMapperRun godocUnmarshalRun [3, 1] godocYaml 7).1 := by
  have hpure : ∀ s, godocUnmarshalRun godocYaml s = (([godocEntry], none), s) := by
    intro s
    simp [godocUnmarshalRun, godocUnmarshal]
  have h := (yamlMapperRun_deterministic godocUnmarshalRun godocYaml).2
    ([godocEntry], none) hpure [] [3, 1] 0 7
  exact ⟨hpure, h.1, h.2.1, h.2.2.1⟩

/-! ## The map under a sequence of requests -/

theorem MapHandlerRef_step {W R σ : Type} (lib : Http W R σ) (F : Handler W R (GoMap × σ))
    (hF : ∀ (w : W) (r : R) (M : GoMap) (s : σ), (F w r (M, s)).1 = M)
    (w : W) (r : R) (M : GoMap) (s s0 : σ) (log : List (Call W R)) :
    (MapHandlerRef (logged lib) (loggedRef F) w r (M, (s, log))).1 = M ∧
    (MapHandlerRef (logged lib) (loggedRef F) w r (M, (s, log))).2.2
      = log ++ callsAlone lib F M s0 (w, r) := by
  cases hl : lookup M (lib.urlString r) with
  | none => simp [MapHandlerRef, MapHandler, withMap, logged, loggedRef, callsAlone, hl, hF]
  | some target => simp [MapHandlerRef, MapHandler, withMap, logged, loggedRef, callsAlone, hl]

theorem serveAll_MapHandlerRef {W R σ : Type} (lib : Http W R σ)
    (F : Handler W R (GoMap × σ))
    (hF : ∀ (w : W) (r : R) (M : GoMap) (s : σ), (F w r (M, s)).1 = M)
    (reqs : List (W × R)) (M : GoMap) (s0 : σ) (st : σ × List (Call W R)) :
    (serveAll (MapHandlerRef (logged lib) (loggedRef F)) reqs (M, st)).1 = M ∧
    (serveAll (MapHandlerRef (logged lib) (loggedRef F)) reqs (M, st)).2.2
      = st.2 ++ (reqs.map (callsAlone lib F M s0)).flatten := by
  induction reqs generalizing st with
  | nil => simp [serveAll]
  | cons q rest ih =>
    obtain ⟨s, log⟩ := st
    obtain ⟨h1, h2⟩ := MapHandlerRef_step lib F hF q.1 q.2 M s s0 log
    have hcons : serveAll (MapHandlerRef (logged lib) (loggedRef F)) (q :: rest) (M, (s, log))
        = serveAll (MapHandlerRef (logged lib) (loggedRef F)) rest
            (M, (MapHandlerRef (logged lib) (loggedRef F) q.1 q.2 (M, (s, log))).2) := by
      have hst : MapHandlerRef (logged lib) (loggedRef F) q.1 q.2 (M, (s, log))
          = (M, (MapHandlerRef (logged lib) (loggedRef F) q.1 q.2 (M, (s, log))).2) :=
        Prod.ext h1 rfl
      simp only [serveAll, List.foldl_cons]
      exact congrArg
        (fun st0 => List.foldl (fun st q => MapHandlerRef (logged lib) (loggedRef F) q.1 q.2 st)
          st0 rest) hst
    obtain ⟨i1, i2⟩ := ih (MapHandlerRef (logged lib) (loggedRef F) q.1 q.2 (M, (s, log))).2
    rw [hcons]
    refine ⟨i1, ?_⟩
    rw [i2, h2]
    simp

/-- Counterexample to C9: a fallback that shares the map and enters the missed
path in it. After the request for `/b` the map is no longer what it was, and
of two requests for `/b` in a row the second is redirected, though a request
for `/b` handled alone goes to the fallback. -/
theorem MapHandlerRef_fallback_writes_map :
    (MapHandlerRef plainHttp learningFallback "w" "/b" ([("/a", "https://example.com")], ())).1
      = [("/a", "https://example.com"), ("/b", "https://example.com")] ∧
    (MapHandlerRef plainHttp learningFallback "w" "/b" ([("/a", "https://example.com")], ())).1
      ≠ [("/a", "https://example.com")] ∧
    (serveAll (MapHandlerRef (logged plainHttp) (loggedRef learningFallback))
        [("w", "/b"), ("w", "/b")] ([("/a", "https://example.com")], ((), []))).2.2
      = [Call.ServeHTTP "w" "/b", Call.Redirect "w" "/b" "https://example.com" 302] ∧
    callsAlone plainHttp learningFallback [("/a", "https://example.com")] () ("w", "/b")
      = [Call.ServeHTTP "w" "/b"] := by
  refine ⟨?_, ?_, ?_, ?_⟩
  · simp [MapHandlerRef, MapHandler, withMap, plainHttp, learningFallback, lookup, assign]
  · simp [MapHandlerRef, MapHandler, withMap, plainHttp, learningFallback, lookup, assign]
  · simp [serveAll, MapHandlerRef, MapHandler, withMap, logged, loggedRef, plainHttp,
      learningFallback, lookup, assign]
  · simp [callsAlone, MapHandlerRef, MapHandler, withMap, logged, loggedRef, plainHttp,
      learningFallback, lookup, assign]

/-- C9, amended: the closure returned by `MapHandler` only reads the map. On a
hit the map is left as it was and the fallback is not run; on a miss the state,
the map included, is what the fallback leaves. When the fallback does not write
the map, the map is the same before and after every request, and serving any
sequence of requests makes, request by request, the calls each request gets
when handled alone. -/
theorem MapHandlerRef_reads_only {W R σ : Type} (lib : Http W R σ)
    (F : Handler W R (GoMap × σ)) :
    (∀ (w : W) (r : R) (M : GoMap) (s : σ), lib.urlString r ∈ keys M →
      ∃ target, lookup M (lib.urlString r) = some target ∧
        MapHandlerRef lib F w r (M, s) = (M, lib.Redirect w r target 302 s)) ∧
    (∀ (w : W) (r : R) (M : GoMap) (s : σ), lib.urlString r ∉ keys M →
      MapHandlerRef lib F w r (M, s) = F w r (M, s)) ∧
    ((∀ (w : W) (r : R) (M : GoMap) (s : σ), (F w r (M, s)).1 = M) →
      (∀ (w : W) (r : R) (M : GoMap) (s : σ), (MapHandlerRef lib F w r (M, s)).1 = M) ∧
      (∀ (reqs : List (W × R)) (M : GoMap) (s s0 : σ) (log : List (Call W R)),
        (serveAll (MapHandlerRef (logged lib) (loggedRef F)) reqs (M, (s, log))).1 = M ∧
        (serveAll (MapHandlerRef (logged lib) (loggedRef F)) reqs (M, (s, log))).2.2
          = log ++ (reqs.map (callsAlone lib F M s0)).flatten)) := by
  refine ⟨?_, ?_, ?_⟩
  · intro w r M s hK
    obtain ⟨target, ht⟩ := lookup_isSome_of_mem M _ hK
    exact ⟨target, ht, by simp [MapHandlerRef, MapHandler, withMap, ht]⟩
  · intro w r M s hK
    have hn : lookup M (lib.urlString r) = none := (lookup_eq_none_iff M _).mpr hK
    simp [MapHandlerRef, MapHandler, withMap, hn]
  · intro hF
    constructor
    · intro w r M s
      cases hl : lookup M (lib.urlString r) with
      | none => simp [MapHandlerRef, MapHandler, withMap, hl, hF]
      | some target => simp [MapHandlerRef, MapHandler, withMap, hl]
    · intro reqs M s s0 log
      exact serveAll_MapHandlerRef lib F hF reqs M s0 (s, log)

/-- Witness of C9, amended: a fallback that leaves the map alone; two requests
for `/b` and one for `/a` get the calls they get alone, and the map is kept. -/
theorem MapHandlerRef_reads_only_witness :
    (∀ (w r : String) (M : GoMap) (s : Unit),
      ((fun _ _ st => st : Handler String String (GoMap × Unit)) w r (M, s)).1 = M) ∧
    (serveAll (MapHandlerRef (logged plainHttp)
        (loggedRef (fun _ _ st => st : Handler String String (GoMap × Unit))))
        [("w", "/b"), ("w", "/a"), ("w", "/b")]
        ([("/a", "https://example.com")], ((), []))).1 = [("/a", "https://example.com")] := by
  have hF : ∀ (w r : String) (M : GoMap) (s : Unit),
      ((fun _ _ st => st : Handler String String (GoMap × Unit)) w r (M, s)).1 = M :=
    fun _ _ _ _ => rfl
  exact ⟨hF, (((MapHandlerRef_reads_only plainHttp
    (fun _ _ st => st : Handler String String (GoMap × Unit))).2.2 hF).2
      [("w", "/b"), ("w", "/a"), ("w", "/b")] [("/a", "https://example.com")] () () []).1⟩

/-! ## Empty values and empty keys -/

/-- C10: the decision of `MapHandler` depends on the presence of the key only:
when the lookup key of a request is mapped to the empty string, the handler
makes the one call `http.Redirect(writer, request, "", 302)` and does not call
the fallback; a decoded record with an empty `Url` produces such an entry, and
a record with an empty `Path` is entered under the key `""`, with its `Url` as
value when it is the last such record. -/
theorem MapHandler_empty_value_redirects {W R σ : Type} (lib : Http W R σ) (M : GoMap)
    (F : Handler W R σ) (w : W) (r : R) (s : σ) (log : List (Call W R))
    (hK : lookup M (lib.urlString r) = some "") :
    MapHandler lib M F w r s = lib.Redirect w r "" 302 s ∧
    MapHandler (logged lib) M (loggedHandler F) w r (s, log)
      = (lib.Redirect w r "" 302 s, log ++ [Call.Redirect w r "" 302]) ∧
    (∀ (yamlOut : List MapperEntry) (K : String),
      lookup (mapper (yamlOut ++ [⟨K, ""⟩])) K = some "") ∧
    (∀ (yamlOut : List MapperEntry) (e : MapperEntry), e ∈ yamlOut → e.Path = "" →
      "" ∈ keys (mapper yamlOut)) ∧
    (∀ (yamlOut : List MapperEntry) (u : String),
      lookup (mapper (yamlOut ++ [⟨"", u⟩])) "" = some u) := by
  refine ⟨?_, ?_, ?_, ?_, ?_⟩
  · simp only [MapHandler, hK]
  · simp only [MapHandler, logged, hK]
  · intro yamlOut K
    rw [mapper_append]
    exact lookup_assign_same _ _ _
  · intro yamlOut e he hp
    exact (mem_keys_mapper yamlOut "").mpr ⟨e, he, hp⟩
  · intro yamlOut u
    rw [mapper_append]
    exact lookup_assign_same _ _ _

/-- Witness of C10: the record `/a` with an empty `Url` is decoded, folded and
served: the request for `/a` gets a redirect with an empty target. -/
theorem MapHandler_empty_value_redirects_witness :
    mapper [⟨"/a", ""⟩] = [("/a", "")] ∧
    MapHandler (logged plainHttp) (mapper [⟨"/a", ""⟩]) (loggedHandler plainFallback)
        "w" "/a" ((), [])
      = ((), [Call.Redirect "w" "/a" "" 302]) :=
  ⟨by simp [mapper, assign],
    (MapHandler_empty_value_redirects plainHttp (mapper [⟨"/a", ""⟩]) plainFallback
      "w" "/a" () [] (by simp [mapper, assign, lookup, plainHttp])).2.1⟩

/-! ## `YAMLHandler` and records with absent or ill-typed fields -/

theorem fieldOf_absent (name cur : String) (rec : List (String × Option String))
    (h : ∀ kv ∈ rec, kv.1 ≠ name) : fieldOf name cur rec = cur := by
  induction rec generalizing cur with
  | nil => rfl
  | cons kv rest ih =>
    have hkv : kv.1 ≠ name := h kv (by simp)
    have hrest : ∀ x ∈ rest, x.1 ≠ name := fun x hx => h x (by simp [hx])
    simp only [fieldOf, List.foldl_cons, if_neg hkv]
    exact ih cur hrest

theorem mappingStruct_plain (rec : List (String × Option String)) (out : MapperEntry) :
    mappingStruct (rec.map fun kv =>
        (YamlKey.name kv.1, match kv.2 with
          | none => YamlNode.null
          | some v => YamlNode.scalar v)) out
      = some ({ Path := fieldOf "path" out.Path rec, Url := fieldOf "url" out.Url rec }, 0) := by
  induction rec generalizing out with
  | nil => simp [mappingStruct, fieldOf]
  | cons kv rest ih =>
    obtain ⟨k, v⟩ := kv
    simp only [List.map_cons, mappingStruct, ih]
    by_cases hp : k = "path"
    · subst hp
      cases v <;> simp [yamlField, yamlString, fieldOf]
    · by_cases hu : k = "url"
      · subst hu
        cases v <;> simp [yamlField, yamlString, fieldOf]
      · cases v <;> simp [yamlField, fieldOf, hp, hu]

theorem yamlEntry_plain (rec : List (String × Option String)) :
    yamlEntry (plainRecord rec) = some (some (entryOf rec), 0) := by
  simp only [plainRecord, yamlEntry, mappingStruct_plain, entryOf]

theorem yamlSequence_plain (recs : List (List (String × Option String)))
    (done : List MapperEntry) (count : Nat) :
    yamlSequence (recs.map plainRecord) done count
      = (done ++ recs.map entryOf, some count) := by
  induction recs generalizing done count with
  | nil => simp [yamlSequence]
  | cons rec rest ih =>
    simp only [List.map_cons, yamlSequence, yamlEntry_plain, ih]
    simp

theorem yamlUnmarshal_plain (recs : List (List (String × Option String))) :
    yamlUnmarshal (some (YamlNode.seq (recs.map plainRecord))) = (recs.map entryOf, none) := by
  simp only [yamlUnmarshal, yamlSequence_plain]
  simp

theorem yamlField_illTyped (k : String) (v : YamlNode) (out : MapperEntry)
    (h : IllTyped (YamlKey.name k, v)) : (yamlField k v out).2 = 1 := by
  obtain ⟨hk, hv⟩ := h
  have hk' : k = "path" ∨ k = "url" := by
    rcases hk with e | e
    · exact Or.inl (YamlKey.name.inj e)
    · exact Or.inr (YamlKey.name.inj e)
  rcases hv with ⟨items, e⟩ | ⟨pairs, e⟩ <;> simp only at e <;> subst e <;>
    rcases hk' with e | e <;> subst e <;> simp [yamlField, yamlString]

theorem mappingStruct_illTyped (pairs : List (YamlKey × YamlNode)) (out out' : MapperEntry)
    (n : Nat) (hm : mappingStruct pairs out = some (out', n))
    (h : ∃ kv ∈ pairs, IllTyped kv) : 0 < n := by
  induction pairs generalizing out out' n with
  | nil => simp at h
  | cons kv rest ih =>
    obtain ⟨key, v⟩ := kv
    obtain ⟨x, hx, hill⟩ := h
    cases key with
    | merge =>
      have hrest : ∃ y ∈ rest, IllTyped y := by
        rcases List.mem_cons.mp hx with e | e
        · subst e
          rcases hill.1 with e1 | e1 <;> exact YamlKey.noConfusion e1
        · exact ⟨x, e, hill⟩
      simp only [mappingStruct] at hm
      cases h1 : merge v out with
      | none => simp [h1] at hm
      | some r1 =>
        obtain ⟨out1, n1⟩ := r1
        cases h2 : mappingStruct rest out1 with
        | none => simp [h1, h2] at hm
        | some r2 =>
          obtain ⟨out2, n2⟩ := r2
          simp only [h1, h2, Option.some.injEq, Prod.mk.injEq] at hm
          have := ih out1 out2 n2 h2 hrest
          omega
    | name k =>
      simp only [mappingStruct] at hm
      cases h2 : mappingStruct rest (yamlField k v out).1 with
      | none => simp [h2] at hm
      | some r2 =>
        obtain ⟨out2, n2⟩ := r2
        simp only [h2, Option.some.injEq, Prod.mk.injEq] at hm
        rcases List.mem_cons.mp hx with e | e
        · subst e
          have := yamlField_illTyped k v out hill
          omega
        · have := ih _ out2 n2 h2 ⟨x, e, hill⟩
          omega

theorem yamlSequence_count (items : List YamlNode) (done done' : List MapperEntry)
    (count count' : Nat) (hs : yamlSequence items done count = (done', some count')) :
    count ≤ count' ∧
    ((∃ n ∈ items, ∃ pairs, n = YamlNode.map pairs ∧ ∃ kv ∈ pairs, IllTyped kv) →
      count < count') := by
  induction items generalizing done count with
  | nil =>
    simp only [yamlSequence, Prod.mk.injEq, Option.some.injEq] at hs
    exact ⟨by omega, by simp⟩
  | cons n rest ih =>
    simp only [yamlSequence] at hs
    cases he : yamlEntry n with
    | none => simp [he] at hs
    | some r =>
      obtain ⟨kept, c⟩ := r
      have hrec : ∃ d, yamlSequence rest d (count + c) = (done', some count') := by
        cases kept with
        | none => exact ⟨done, by simpa [he] using hs⟩
        | some e => exact ⟨done ++ [e], by simpa [he] using hs⟩
      obtain ⟨d, hd⟩ := hrec
      obtain ⟨hle, hlt⟩ := ih d (count + c) hd
      refine ⟨by omega, ?_⟩
      rintro ⟨m, hm, pairs, rfl, hill⟩
      rcases List.mem_cons.mp hm with e | e
      · subst e
        simp only [yamlEntry] at he
        cases h1 : mappingStruct pairs { Path := "", Url := "" } with
        | none => simp [h1] at he
        | some r1 =>
          obtain ⟨out1, n1⟩ := r1
          simp only [h1, Option.some.injEq, Prod.mk.injEq] at he
          have := mappingStruct_illTyped pairs _ out1 n1 h1 hill
          omega
      · have := hlt ⟨_, e, pairs, rfl, hill⟩
        omega

theorem yamlUnmarshal_illTyped (items : List YamlNode)
    (h : ∃ n ∈ items, ∃ pairs, n = YamlNode.map pairs ∧ ∃ kv ∈ pairs, IllTyped kv) :
    ∃ err, (yamlUnmarshal (some (YamlNode.seq items))).2 = some err := by
  simp only [yamlUnmarshal]
  rcases hs : yamlSequence items [] 0 with ⟨done, _ | c⟩
  · exact ⟨YamlError.mergeError, rfl⟩
  · have hpos := (yamlSequence_count items [] done 0 c hs).2 h
    cases c with
    | zero => exact absurd hpos (by omega)
    | succ c => exact ⟨YamlError.typeError (c + 1), rfl⟩

/-- Counterexample to C5: the document with the one record `path: /a`, which
lacks `url`, is decoded without error, and so are the documents whose record
has the integer `5` or a null as `url`; for each of them `YAMLHandler` returns
a nil error and a handler, over the map that sends `/a` to the empty string,
to `5` and to the empty string. -/
theorem YAMLHandler_missing_url_accepted :
    YAMLHandler plainHttp yamlUnmarshal missingUrlDoc plainFallback
      = (some (MapHandler plainHttp [("/a", "")] plainFallback), none) ∧
    (¬ ∃ e, YAMLHandler plainHttp yamlUnmarshal missingUrlDoc plainFallback
      = (none, some e)) ∧
    YAMLHandler plainHttp yamlUnmarshal intUrlDoc plainFallback
      = (some (MapHandler plainHttp [("/a", "5")] plainFallback), none) ∧
    YAMLHandler plainHttp yamlUnmarshal nullUrlDoc plainFallback
      = (some (MapHandler plainHttp [("/a", "")] plainFallback), none) := by
  have h : YAMLHandler plainHttp yamlUnmarshal missingUrlDoc plainFallback
      = (some (MapHandler plainHttp [("/a", "")] plainFallback), none) := by
    simp [YAMLHandler, yamlMapper, yamlUnmarshal, missingUrlDoc, yamlSequence, yamlEntry,
      mappingStruct, yamlField, yamlString, mapper, assign]
  refine ⟨h, ?_, ?_, ?_⟩
  · rintro ⟨e, he⟩
    rw [h] at he
    simp at he
  · simp [YAMLHandler, yamlMapper, yamlUnmarshal, intUrlDoc, yamlSequence, yamlEntry,
      mappingStruct, yamlField, yamlString, mapper, assign]
  · simp [YAMLHandler, yamlMapper, yamlUnmarshal, nullUrlDoc, yamlSequence, yamlEntry,
      mappingStruct, yamlField, yamlString, mapper, assign]

/-- C5, amended: `YAMLHandler` fails, with the decoder's error and no handler,
whenever the decoder reports an error, as it does for every document in which
the `path` or `url` of a record is a sequence or a mapping. An absent field,
a null and a scalar that is not a string are no errors: for every document
whose records are mappings with scalar or null values `YAMLHandler` returns a
nil error and the handler over the map of the decoded records, in which a
field is the text of the last value given to it and is empty when its key is
absent or its value null. -/
theorem YAMLHandler_absent_field_accepted {W R σ : Type} (lib : Http W R σ)
    (F : Handler W R σ) :
    (∀ (B E : Type) (unmarshal : B → List MapperEntry × Option E) (yml : B) (e : E),
      (unmarshal yml).2 = some e → YAMLHandler lib unmarshal yml F = (none, some e)) ∧
    (∀ (items : List YamlNode),
      (∃ n ∈ items, ∃ pairs, n = YamlNode.map pairs ∧ ∃ kv ∈ pairs, IllTyped kv) →
      ∃ err, YAMLHandler lib yamlUnmarshal (some (YamlNode.seq items)) F = (none, some err)) ∧
    (∀ (recs : List (List (String × Option String))),
      YAMLHandler lib yamlUnmarshal (some (YamlNode.seq (recs.map plainRecord))) F
        = (some (MapHandler lib (mapper (recs.map entryOf)) F), none)) ∧
    (∀ (rec : List (String × Option String)),
      ((∀ kv ∈ rec, kv.1 ≠ "url") → (entryOf rec).Url = "") ∧
      ((∀ kv ∈ rec, kv.1 ≠ "path") → (entryOf rec).Path = "") ∧
      (∀ (front : List (String × Option String)) (k : String) (v : Option String),
        rec = front ++ [(k, v)] →
          (k = "url" → (entryOf rec).Url = v.getD "") ∧
          (k = "path" → (entryOf rec).Path = v.getD ""))) := by
  have hfail : ∀ (B E : Type) (unmarshal : B → List MapperEntry × Option E) (yml : B) (e : E),
      (unmarshal yml).2 = some e → YAMLHandler lib unmarshal yml F = (none, some e) := by
    intro B E unmarshal yml e he
    rcases hu : unmarshal yml with ⟨out, _ | e'⟩
    · rw [hu] at he
      exact Option.noConfusion he
    · rw [hu] at he
      have : e' = e := Option.some.inj he
      subst this
      simp [YAMLHandler, yamlMapper, hu]
  refine ⟨hfail, ?_, ?_, ?_⟩
  · intro items hill
    obtain ⟨err, herr⟩ := yamlUnmarshal_illTyped items hill
    exact ⟨err, hfail _ _ yamlUnmarshal _ err herr⟩
  · intro recs
    simp only [YAMLHandler, yamlMapper, yamlUnmarshal_plain]
  · intro rec
    refine ⟨fun h => fieldOf_absent "url" "" rec h, fun h => fieldOf_absent "path" "" rec h, ?_⟩
    intro front k v hrec
    subst hrec
    constructor
    · intro hk
      subst hk
      simp [entryOf, fieldOf, List.foldl_append]
    · intro hk
      subst hk
      simp [entryOf, fieldOf, List.foldl_append]

end Urlshort
